import Mathlib

/-!
Verification of the lemma-clustering core (`create_bol`) and the
repetition-collapsing helper (`remove_repetitions`) of
`src/tidyX/TextPreprocessor.py`.

The Python source operates on numpy arrays of strings and pandas
DataFrames; we embed the working set as a `List String` (order is what
matters), a DataFrame row as a `Record`, and the similarity metric
`fuzz.ratio` (thefuzz backed by python-Levenshtein, as the source's
"pip install python-Levenshtein" comment indicates) as an exact-rational
computation rounded the way Python's `round` rounds (half to even).
-/

/-- One row of the DataFrame built by `create_bol`:
columns bow_id, bow_name, lemma, similarity, threshold.
The lemma column is named `lem` here. -/
structure Record where
  bow_id : Nat
  bow_name : String
  lem : String
  similarity : Nat
  threshold : Nat
deriving DecidableEq, Repr

/-- Length of a longest common subsequence of two character lists.
`fuzz.ratio`'s underlying distance (Levenshtein with substitution cost 2,
i.e. insert/delete only) satisfies `dist = |a| + |b| - 2 * lcs`. -/
def lcsLen : List Char → List Char → Nat
  | [], _ => 0
  | _, [] => 0
  | a :: as, b :: bs =>
    if a = b then lcsLen as bs + 1
    else max (lcsLen (a :: as) bs) (lcsLen as (b :: bs))
termination_by xs ys => xs.length + ys.length
decreasing_by
  all_goals simp [List.length_cons]
  all_goals omega

/-- Python's `round` on an exact non-negative rational `num / den`
(`den > 0`): round half to even. -/
def pyRound (num den : Nat) : Nat :=
  if 2 * (num % den) < den then num / den
  else if den < 2 * (num % den) then num / den + 1
  else if num / den % 2 = 0 then num / den else num / den + 1

/-- The metric `fuzz.ratio(a, b)`: `int(round(100 * (lensum - dist) / lensum))` with
`lensum = len(a) + len(b)` and `dist` the insert/delete edit distance, so
`lensum - dist = 2 * lcs`.  `ratio` of two empty strings is defined as 1.0,
hence 100. -/
def fuzzSim (a b : String) : Nat :=
  if a.length + b.length = 0 then 100
  else pyRound (200 * lcsLen a.toList b.toList) (a.length + b.length)

/-- Line 397 of the source:
`threshold = 88 if len(current_lemma) < 3 else 87 if len(current_lemma) <= 4
 else 86 if len(current_lemma) == 5 else 85`. -/
def thresholdFor (s : String) : Nat :=
  if s.length < 3 then 88 else if s.length ≤ 4 then 87
  else if s.length = 5 then 86 else 85

/-- Whether a working-set lemma `l` is selected into the bag of the current
representative: its similarity strictly exceeds the threshold
(`np.where(distances > threshold)`). Because `distances[i]` is a function of
`lemmas[i]` alone, selection by index equals selection by element. -/
def inBag (current l : String) : Bool :=
  decide (thresholdFor current < fuzzSim current l)

/-- The selection `similar_lemmas = lemmas[similar_lemmas_idx]`: the working-set lemmas
(in order) whose similarity to the representative `lemmas[0]` strictly
exceeds the threshold. -/
def bagMembers : List String → List String
  | [] => []
  | current :: rest => (current :: rest).filter (fun l => inBag current l)

/-- The deletion `np.delete(lemmas, similar_lemmas_idx)`: the working-set lemmas (in
order) that were not selected. -/
def bagRest : List String → List String
  | [] => []
  | current :: rest => (current :: rest).filter (fun l => ! inBag current l)

/-- The rows of `bag_data` for one loop iteration: one row per selected
lemma, with `bow_name = similar_lemmas[0]` and `bow_id = iterator + 1`. -/
def bagRecords (ws : List String) (bagId : Nat) : List Record :=
  match ws with
  | [] => []
  | current :: rest =>
    (bagMembers (current :: rest)).map (fun l =>
      ⟨bagId, (bagMembers (current :: rest)).headD (""), l,
        fuzzSim current l, thresholdFor current⟩)

theorem lcsLen_self : ∀ l : List Char, lcsLen l l = l.length := by
  intro l
  induction l with
  | nil => simp [lcsLen]
  | cons a as ih => simp [lcsLen, ih]

theorem fuzzSim_self (a : String) : fuzzSim a a = 100 := by
  unfold fuzzSim
  by_cases h : a.length + a.length = 0
  · simp [h]
  · have hl : a.toList.length = a.length := rfl
    have h100 : 200 * lcsLen a.toList a.toList = 100 * (a.length + a.length) := by
      rw [lcsLen_self, hl]; ring
    simp only [h, if_false, pyRound, h100]
    have hpos : 0 < a.length + a.length := Nat.pos_of_ne_zero h
    rw [Nat.mul_mod_left, Nat.mul_div_cancel _ hpos]
    simp [hpos]

theorem thresholdFor_le (s : String) : thresholdFor s ≤ 88 := by
  unfold thresholdFor
  split_ifs <;> omega

theorem inBag_self (s : String) : inBag s s = true := by
  have h := thresholdFor_le s
  simp only [inBag, fuzzSim_self, decide_eq_true_eq]
  omega

theorem bagMembers_cons (c : String) (r : List String) :
    bagMembers (c :: r) = c :: r.filter (fun l => inBag c l) := by
  simp [bagMembers, List.filter_cons, inBag_self]

theorem bagRest_cons (c : String) (r : List String) :
    bagRest (c :: r) = r.filter (fun l => ! inBag c l) := by
  simp [bagRest, List.filter_cons, inBag_self]

theorem bagRest_length_lt (c : String) (r : List String) :
    (bagRest (c :: r)).length < (c :: r).length := by
  rw [bagRest_cons]
  have := List.length_filter_le (fun l => ! inBag c l) r
  simp only [List.length_cons]
  omega

/-- The `while len(lemmas) > 0` loop of `create_bol` (lines 390-428).
Each iteration forms one bag from the head of the working set, appends its
rows, and deletes its members from the working set.  The progress block
`if verbose and iterator % step == 0` evaluates `iterator % step`; when
`step = 0` (input shorter than 20 lemmas) this raises `ZeroDivisionError`,
which the `except` clause catches, so the loop `break`s after the first
iteration's rows were already appended.  When `verbose` is false the `and`
short-circuits and no division happens. -/
def createBolLoop (ws : List String) (verbose : Bool) (step iter : Nat)
    (acc : List Record) : List Record :=
  match ws with
  | [] => acc
  | current :: rest =>
    let acc2 := acc ++ bagRecords (current :: rest) (iter + 1)
    if verbose ∧ step = 0 then acc2
    else createBolLoop (bagRest (current :: rest)) verbose step (iter + 1) acc2
termination_by ws.length
decreasing_by
  exact bagRest_length_lt current rest

/-- The function `create_bol(lemmas, verbose)` (lines 366-430).  `step` is
`int(num_lemmas * 0.05)`, which equals `num_lemmas / 20` in integer
arithmetic for the sizes concerned (in particular `step = 0` exactly when
the input has fewer than 20 lemmas). -/
def create_bol (lemmas : List String) (verbose : Bool) : List Record :=
  createBolLoop lemmas verbose (lemmas.length / 20) 0 []

/-- An element of the numpy array handed to `create_bol`: either a string
or a non-string value (e.g. a float `NaN`), on which `fuzz.ratio` raises
`TypeError`. -/
inductive Item where
  | str : String → Item
  | other : Item
deriving DecidableEq

/-- The metric `fuzz.ratio(a, b)` on raw array elements: defined on two strings,
raises `TypeError` otherwise. -/
def itemSim : Item → Item → Except String Nat
  | Item.str a, Item.str b => Except.ok (fuzzSim a b)
  | _, _ => Except.error ("TypeError")

/-- The string carried by a string element (placeholder for the other
case, which is only reached error-free on all-string working sets). -/
def itemStr : Item → String
  | Item.str s => s
  | Item.other => ""

/-- The `create_bol` loop over raw array elements.  Each iteration first
computes `distances = [fuzz.ratio(current_lemma, lemma) for lemma in lemmas]`,
which raises `TypeError` as soon as any element of the current working set
is not a string; the `except` clause catches the error and breaks, so the
call returns the rows accumulated by the previously completed iterations.
On an all-string working set the iteration is exactly one `createBolLoop`
iteration. -/
def createBolLoopI (ws : List Item) (verbose : Bool) (step iter : Nat)
    (acc : List Record) : List Record :=
  match ws with
  | [] => acc
  | current :: rest =>
    match (current :: rest).mapM (itemSim current) with
    | Except.error _ => acc
    | Except.ok _ =>
      let strs := (current :: rest).map itemStr
      let acc2 := acc ++ bagRecords strs (iter + 1)
      if verbose ∧ step = 0 then acc2
      else createBolLoopI ((bagRest strs).map Item.str) verbose step
        (iter + 1) acc2
termination_by ws.length
decreasing_by
  simp only [List.length_map, List.map_cons]
  have h := bagRest_length_lt (itemStr current) (rest.map itemStr)
  simp only [List.length_cons, List.length_map] at h ⊢
  omega

/-- The function `create_bol` on a raw array. -/
def createBolItems (items : List Item) (verbose : Bool) : List Record :=
  createBolLoopI items verbose (items.length / 20) 0 []

/-- The threshold table as §4.1 of the spec words it. -/
def specThresholdTable (n : Nat) : Nat :=
  if n < 3 then 88 else if n = 3 ∨ n = 4 then 87 else if n = 5 then 86 else 85

/-- The default `exceptions` argument of `remove_repetitions` (a list of
one-character strings in the source). -/
def defaultExceptions : List Char := ['r', 'l', 'n', 'c', 'a', 'e', 'o']

/-- The set of characters the second substitution of `remove_repetitions`
refuses to collapse.  Its character class is
`[^{}]`-built from `re.escape(exceptions_pattern)` where
`exceptions_pattern = "|".join(re.escape(c) for c in exceptions)`; for
exception characters that `re.escape` leaves unchanged (letters and
digits, which covers the default list) the escaped joined pattern
contributes the exception characters themselves plus, whenever the list
has at least two entries, the escaped separator `\|` — so the literal
pipe character also lands in the class and is never collapsed. -/
def reClass2 (exceptions : List Char) : List Char :=
  if 2 ≤ exceptions.length then '|' :: exceptions else exceptions

/-- The substitution `re.sub(r'(.)\1+', r'\1', s)`: collapse every maximal run of 2 or more
identical characters to one occurrence (`.` does not match a newline, so
newline runs stay). Used when `exceptions` is empty. -/
def sub0 : List Char → List Char
  | [] => []
  | c :: rest =>
    (if c ≠ '\n' ∧ rest.takeWhile (fun d => d = c) ≠ [] then [c]
     else c :: rest.takeWhile (fun d => d = c)) ++
      sub0 (rest.dropWhile (fun d => d = c))
termination_by l => l.length
decreasing_by
  have := (List.dropWhile_sublist (l := rest) (fun d => decide (d = c))).length_le
  simp only [List.length_cons]
  omega

/-- First substitution: `re.sub(r'(c1|...|ck)\1+', r'\1\1', s)` — every
maximal run of 2 or more of an exception character becomes exactly two
occurrences; other runs are untouched. -/
def sub1 (E : List Char) : List Char → List Char
  | [] => []
  | c :: rest =>
    (if c ∈ E ∧ rest.takeWhile (fun d => d = c) ≠ [] then [c, c]
     else c :: rest.takeWhile (fun d => d = c)) ++
      sub1 E (rest.dropWhile (fun d => d = c))
termination_by l => l.length
decreasing_by
  have := (List.dropWhile_sublist (l := rest) (fun d => decide (d = c))).length_le
  simp only [List.length_cons]
  omega

/-- Second substitution: `re.sub(r'([^...])\1+', r'\1', s)` — every maximal
run of 2 or more of a character outside the class becomes one occurrence. -/
def sub2 (C : List Char) : List Char → List Char
  | [] => []
  | c :: rest =>
    (if c ∉ C ∧ rest.takeWhile (fun d => d = c) ≠ [] then [c]
     else c :: rest.takeWhile (fun d => d = c)) ++
      sub2 C (rest.dropWhile (fun d => d = c))
termination_by l => l.length
decreasing_by
  have := (List.dropWhile_sublist (l := rest) (fun d => decide (d = c))).length_le
  simp only [List.length_cons]
  omega

/-- The function `remove_repetitions(string, exceptions)` (lines 20-47 of the source),
for exception characters that `re.escape` leaves unescaped (letters and
digits; the default list is letters). -/
def remove_repetitions (s : String) (exceptions : List Char) : String :=
  if exceptions = [] then String.mk (sub0 s.toList)
  else String.mk (sub2 (reClass2 exceptions) (sub1 exceptions s.toList))

/-- Modelled from the spec (§4.2): collapses 2+ consecutive identical
characters to 1, except characters in `exceptions` collapse to exactly 2
(never more, never fewer). -/
def specCollapse (E : List Char) : List Char → List Char
  | [] => []
  | c :: rest =>
    (if c ∈ E ∧ rest.takeWhile (fun d => d = c) ≠ [] then [c, c]
     else [c]) ++ specCollapse E (rest.dropWhile (fun d => d = c))
termination_by l => l.length
decreasing_by
  have := (List.dropWhile_sublist (l := rest) (fun d => decide (d = c))).length_le
  simp only [List.length_cons]
  omega

theorem createBolLoop_nil (v : Bool) (step iter : Nat) (acc : List Record) :
    createBolLoop [] v step iter acc = acc := by
  simp [createBolLoop]

theorem createBolLoop_cons (c : String) (rest : List String) (v : Bool)
    (step iter : Nat) (acc : List Record) :
    createBolLoop (c :: rest) v step iter acc =
      if v ∧ step = 0 then acc ++ bagRecords (c :: rest) (iter + 1)
      else createBolLoop (bagRest (c :: rest)) v step (iter + 1)
        (acc ++ bagRecords (c :: rest) (iter + 1)) := by
  rw [createBolLoop]

/-- Field-level description of the rows of one bag: the id is the bag's id,
the name and threshold come from the representative (the head of the
working set), and the similarity of each row strictly exceeds the
threshold. -/
theorem bagRecords_mem (cur : String) (rest : List String) (bagId : Nat)
    (r : Record) (h : r ∈ bagRecords (cur :: rest) bagId) :
    r.bow_id = bagId ∧ r.bow_name = cur ∧ r.threshold = thresholdFor cur ∧
    r.similarity = fuzzSim cur r.lem ∧ inBag cur r.lem = true := by
  simp only [bagRecords, bagMembers_cons, List.headD_cons] at h
  obtain ⟨l, hl, rfl⟩ := List.mem_map.mp h
  refine ⟨rfl, rfl, rfl, rfl, ?_⟩
  rcases List.mem_cons.mp hl with h1 | h2
  · rw [h1]; exact inBag_self cur
  · exact List.of_mem_filter h2

/-- The representative's own row (`similarity = 100`) is always in its bag. -/
theorem bag_self_mem (cur : String) (rest : List String) (bagId : Nat) :
    (⟨bagId, cur, cur, 100, thresholdFor cur⟩ : Record) ∈
      bagRecords (cur :: rest) bagId := by
  simp only [bagRecords, bagMembers_cons, List.headD_cons]
  refine List.mem_map.mpr ⟨cur, List.mem_cons_self _ _, ?_⟩
  simp [fuzzSim_self]

/-- The lemma column of one bag is exactly the selected sub-sequence of the
working set. -/
theorem bagRecords_map_lem (ws : List String) (bagId : Nat) :
    (bagRecords ws bagId).map Record.lem = bagMembers ws := by
  cases ws with
  | nil => rfl
  | cons c rest =>
    simp only [bagRecords, List.map_map]
    have hid : (Record.lem ∘ fun l =>
        (⟨bagId, (bagMembers (c :: rest)).headD (""), l, fuzzSim c l,
          thresholdFor c⟩ : Record)) = id := rfl
    rw [hid, List.map_id]

/-- Any per-record property that holds of every row of every bag holds of
every row the loop returns (given it holds on the accumulator). -/
theorem createBolLoop_inv (P : Record → Prop)
    (hbag : ∀ cur rest bagId r, r ∈ bagRecords (cur :: rest) bagId → P r) :
    ∀ (n : Nat) (ws : List String) (v : Bool) (step iter : Nat)
      (acc : List Record), ws.length ≤ n → (∀ r ∈ acc, P r) →
      ∀ r ∈ createBolLoop ws v step iter acc, P r := by
  intro n
  induction n with
  | zero =>
    intro ws v step iter acc hlen hacc r hr
    have hws : ws = [] := List.eq_nil_of_length_eq_zero (Nat.le_zero.mp hlen)
    subst hws
    rw [createBolLoop_nil] at hr
    exact hacc r hr
  | succ n ih =>
    intro ws v step iter acc hlen hacc r hr
    cases ws with
    | nil =>
      rw [createBolLoop_nil] at hr
      exact hacc r hr
    | cons cur rest =>
      rw [createBolLoop_cons] at hr
      have hacc2 : ∀ r ∈ acc ++ bagRecords (cur :: rest) (iter + 1), P r := by
        intro r hr2
        rcases List.mem_append.mp hr2 with h | h
        · exact hacc r h
        · exact hbag cur rest _ r h
      split at hr
      · exact hacc2 r hr
      · refine ih (bagRest (cur :: rest)) v step (iter + 1) _ ?_ hacc2 r hr
        have := bagRest_length_lt cur rest
        simp only [List.length_cons] at this hlen ⊢
        omega

theorem thresholdFor_spec (s : String) :
    thresholdFor s = specThresholdTable s.length := by
  unfold thresholdFor specThresholdTable
  split_ifs <;> omega

theorem thresholdFor_cases (s : String) :
    thresholdFor s = 85 ∨ thresholdFor s = 86 ∨ thresholdFor s = 87 ∨
      thresholdFor s = 88 := by
  unfold thresholdFor
  split_ifs <;> simp

/-- C3: in every bag `create_bol` forms, the threshold is the deterministic
pure function of the representative's (= `bow_name`'s) length given by the
table — length < 3 gives 88, length 3 or 4 gives 87, length 5 gives 86,
length ≥ 6 gives 85 — and hence every threshold in the output is one of
85, 86, 87, 88. -/
theorem create_bol_threshold_table (lemmas : List String) (v : Bool)
    (r : Record) (h : r ∈ create_bol lemmas v) :
    r.threshold = specThresholdTable r.bow_name.length ∧
    (r.threshold = 85 ∨ r.threshold = 86 ∨ r.threshold = 87 ∨
      r.threshold = 88) := by
  refine createBolLoop_inv
    (fun r => r.threshold = specThresholdTable r.bow_name.length ∧
      (r.threshold = 85 ∨ r.threshold = 86 ∨ r.threshold = 87 ∨
        r.threshold = 88))
    ?_ lemmas.length lemmas v _ 0 [] le_rfl (by simp) r h
  intro cur rest bagId r2 hr2
  obtain ⟨-, hname, hthr, -, -⟩ := bagRecords_mem cur rest bagId r2 hr2
  rw [hthr, hname, thresholdFor_spec]
  exact ⟨rfl, by rw [← thresholdFor_spec]; exact thresholdFor_cases cur⟩

theorem create_bol_threshold_table_witness :
    ((⟨1, "casa", "casa", 100, 87⟩ : Record).threshold =
      specThresholdTable (⟨1, "casa", "casa", 100, 87⟩ : Record).bow_name.length) ∧
    ((⟨1, "casa", "casa", 100, 87⟩ : Record).threshold = 85 ∨
      (⟨1, "casa", "casa", 100, 87⟩ : Record).threshold = 86 ∨
      (⟨1, "casa", "casa", 100, 87⟩ : Record).threshold = 87 ∨
      (⟨1, "casa", "casa", 100, 87⟩ : Record).threshold = 88) :=
  create_bol_threshold_table ["casa"] false _
    (by simp +decide [create_bol, createBolLoop, bagRecords, bagMembers,
      bagRest, inBag, fuzzSim, pyRound, lcsLen, thresholdFor])

/-- C4: every membership record `create_bol` emits has similarity strictly
greater than its bag's threshold; a score equal to the threshold is not
selected (`distances > threshold` is strict). -/
theorem create_bol_similarity_strict (lemmas : List String) (v : Bool)
    (r : Record) (h : r ∈ create_bol lemmas v) :
    r.threshold < r.similarity := by
  refine createBolLoop_inv (fun r => r.threshold < r.similarity)
    ?_ lemmas.length lemmas v _ 0 [] le_rfl (by simp) r h
  intro cur rest bagId r2 hr2
  obtain ⟨-, -, hthr, hsim, hin⟩ := bagRecords_mem cur rest bagId r2 hr2
  rw [hthr, hsim]
  simpa [inBag] using hin

theorem create_bol_similarity_strict_witness :
    (⟨1, "casa", "casa", 100, 87⟩ : Record).threshold <
      (⟨1, "casa", "casa", 100, 87⟩ : Record).similarity :=
  create_bol_similarity_strict ["casa"] false _
    (by simp +decide [create_bol, createBolLoop, bagRecords, bagMembers,
      bagRest, inBag, fuzzSim, pyRound, lcsLen, thresholdFor])

/-- The loop only appends to the accumulator. -/
theorem createBolLoop_append :
    ∀ (n : Nat) (ws : List String) (v : Bool) (step iter : Nat)
      (acc : List Record), ws.length ≤ n →
      createBolLoop ws v step iter acc =
        acc ++ createBolLoop ws v step iter [] := by
  intro n
  induction n with
  | zero =>
    intro ws v step iter acc hlen
    have hws : ws = [] := List.eq_nil_of_length_eq_zero (Nat.le_zero.mp hlen)
    subst hws
    rw [createBolLoop_nil, createBolLoop_nil, List.append_nil]
  | succ n ih =>
    intro ws v step iter acc hlen
    cases ws with
    | nil => rw [createBolLoop_nil, createBolLoop_nil, List.append_nil]
    | cons cur rest =>
      rw [createBolLoop_cons, createBolLoop_cons]
      have hlt : (bagRest (cur :: rest)).length ≤ n := by
        have := bagRest_length_lt cur rest
        simp only [List.length_cons] at this hlen
        omega
      by_cases hc : v = true ∧ step = 0
      · rw [if_pos hc, if_pos hc, List.nil_append]
      · rw [if_neg hc, if_neg hc,
          ih _ v step (iter + 1) (acc ++ bagRecords (cur :: rest) (iter + 1)) hlt,
          ih _ v step (iter + 1) ([] ++ bagRecords (cur :: rest) (iter + 1)) hlt,
          List.nil_append, List.append_assoc]

/-- Every returned row comes from some whole bag, and that whole bag is
contained in the returned rows. -/
theorem createBolLoop_bags :
    ∀ (n : Nat) (ws : List String) (v : Bool) (step iter : Nat)
      (acc : List Record) (r : Record), ws.length ≤ n →
      r ∈ createBolLoop ws v step iter acc →
      r ∈ acc ∨ ∃ cur rest2, r ∈ bagRecords (cur :: rest2) r.bow_id ∧
        ∀ r2 ∈ bagRecords (cur :: rest2) r.bow_id,
          r2 ∈ createBolLoop ws v step iter acc := by
  intro n
  induction n with
  | zero =>
    intro ws v step iter acc r hlen hr
    have hws : ws = [] := List.eq_nil_of_length_eq_zero (Nat.le_zero.mp hlen)
    subst hws
    rw [createBolLoop_nil] at hr
    exact Or.inl hr
  | succ n ih =>
    intro ws v step iter acc r hlen hr
    cases ws with
    | nil =>
      rw [createBolLoop_nil] at hr
      exact Or.inl hr
    | cons cur rest =>
      rw [createBolLoop_cons] at hr ⊢
      have hlt : (bagRest (cur :: rest)).length ≤ n := by
        have := bagRest_length_lt cur rest
        simp only [List.length_cons] at this hlen
        omega
      by_cases hc : v = true ∧ step = 0
      · rw [if_pos hc] at hr ⊢
        rcases List.mem_append.mp hr with h | h
        · exact Or.inl h
        · refine Or.inr ⟨cur, rest, ?_, ?_⟩
          · rwa [(bagRecords_mem cur rest _ r h).1]
          · intro r2 hr2
            rw [(bagRecords_mem cur rest _ r h).1] at hr2
            exact List.mem_append.mpr (Or.inr hr2)
      · rw [if_neg hc] at hr ⊢
        rcases ih (bagRest (cur :: rest)) v step (iter + 1) _ r hlt hr with
          h | ⟨cur2, rest2, hmem, hsub⟩
        · rcases List.mem_append.mp h with h1 | h2
          · exact Or.inl h1
          · refine Or.inr ⟨cur, rest, ?_, ?_⟩
            · rwa [(bagRecords_mem cur rest _ r h2).1]
            · intro r2 hr2
              rw [(bagRecords_mem cur rest _ r h2).1] at hr2
              rw [createBolLoop_append n _ v step (iter + 1) _ hlt]
              exact List.mem_append.mpr
                (Or.inl (List.mem_append.mpr (Or.inr hr2)))
        · exact Or.inr ⟨cur2, rest2, hmem, hsub⟩

/-- C5: in every bag `create_bol` forms, `bow_name` is the first element of
the working set at the time the bag was formed (the representative), and
that representative appears as a lemma value in its own bag (same
`bow_id`) with similarity exactly 100. -/
theorem create_bol_representative :
    (∀ cur rest bagId r, r ∈ bagRecords (cur :: rest) bagId →
      r.bow_name = cur) ∧
    (∀ (lemmas : List String) (v : Bool) (r : Record),
      r ∈ create_bol lemmas v →
      ∃ r2, r2 ∈ create_bol lemmas v ∧ r2.bow_id = r.bow_id ∧
        r2.bow_name = r.bow_name ∧ r2.lem = r.bow_name ∧
        r2.similarity = 100) := by
  constructor
  · intro cur rest bagId r hr
    exact (bagRecords_mem cur rest bagId r hr).2.1
  · intro lemmas v r hr
    rcases createBolLoop_bags lemmas.length lemmas v _ 0 [] r le_rfl hr with
      h | ⟨cur, rest2, hmem, hsub⟩
    · simp at h
    · have hname := (bagRecords_mem cur rest2 _ r hmem).2.1
      refine ⟨⟨r.bow_id, cur, cur, 100, thresholdFor cur⟩,
        hsub _ (bag_self_mem cur rest2 r.bow_id), rfl, ?_, ?_, rfl⟩
      · simp [hname]
      · simp [hname]

theorem create_bol_representative_witness :
    ((⟨1, "ab", "ab", 100, 88⟩ : Record).bow_name = "ab") ∧
    (∃ r2, r2 ∈ create_bol ["ab"] false ∧
      r2.bow_id = (⟨1, "ab", "ab", 100, 88⟩ : Record).bow_id ∧
      r2.bow_name = (⟨1, "ab", "ab", 100, 88⟩ : Record).bow_name ∧
      r2.lem = (⟨1, "ab", "ab", 100, 88⟩ : Record).bow_name ∧
      r2.similarity = 100) :=
  ⟨create_bol_representative.1 ("ab") [] 1 _
      (by simp +decide [bagRecords, bagMembers, bagRest, inBag, fuzzSim,
        pyRound, lcsLen, thresholdFor]),
   create_bol_representative.2 ["ab"] false _
      (by simp +decide [create_bol, createBolLoop, bagRecords, bagMembers,
        bagRest, inBag, fuzzSim, pyRound, lcsLen, thresholdFor])⟩

/-- One iteration splits the working set into the bag and the remainder,
up to nothing: together they are a permutation of (in fact, exactly) the
working set. -/
theorem bagMembers_append_bagRest_perm (cur : String) (rest : List String) :
    (bagMembers (cur :: rest) ++ bagRest (cur :: rest)).Perm (cur :: rest) := by
  have h := List.filter_append_perm (fun l => inBag cur l) (cur :: rest)
  simpa [bagMembers, bagRest] using h

/-- With `verbose = false` the loop records every working-set lemma exactly
once: the lemma column of the result is a permutation of accumulator plus
working set. -/
theorem createBolLoop_perm_false :
    ∀ (n : Nat) (ws : List String) (step iter : Nat) (acc : List Record),
      ws.length ≤ n →
      ((createBolLoop ws false step iter acc).map Record.lem).Perm
        (acc.map Record.lem ++ ws) := by
  intro n
  induction n with
  | zero =>
    intro ws step iter acc hlen
    have hws : ws = [] := List.eq_nil_of_length_eq_zero (Nat.le_zero.mp hlen)
    subst hws
    rw [createBolLoop_nil, List.append_nil]
  | succ n ih =>
    intro ws step iter acc hlen
    cases ws with
    | nil => rw [createBolLoop_nil, List.append_nil]
    | cons cur rest =>
      rw [createBolLoop_cons, if_neg (by simp)]
      have hlt : (bagRest (cur :: rest)).length ≤ n := by
        have := bagRest_length_lt cur rest
        simp only [List.length_cons] at this hlen
        omega
      refine (ih _ step (iter + 1) _ hlt).trans ?_
      rw [List.map_append, bagRecords_map_lem, List.append_assoc]
      exact List.Perm.append_left _ (bagMembers_append_bagRest_perm cur rest)

/-- C1 is a code bug.  With the default `verbose=True` and fewer than 20
lemmas, `step = int(num_lemmas * 0.05) = 0`, so the progress check
`iterator % step == 0` raises `ZeroDivisionError`; the `except` clause
catches it and breaks, and only the first bag is returned: on
`["ab", "zz"]` the output holds one record instead of two.  The invariant
the claim states does hold of the loop itself, i.e. whenever the progress
side effect does not abort the run (here: `verbose=false`): the lemma
column of the output is a permutation of the input. -/
theorem create_bol_total_membership :
    ((create_bol ["ab", "zz"] true).map Record.lem = ["ab"]) ∧
    ((create_bol ["ab", "zz"] false).map Record.lem = ["ab", "zz"]) ∧
    (∀ lemmas : List String,
      ((create_bol lemmas false).map Record.lem).Perm lemmas) := by
  refine ⟨?_, ?_, ?_⟩
  · simp +decide [create_bol, createBolLoop, bagRecords, bagMembers, bagRest,
      inBag, fuzzSim, pyRound, lcsLen, thresholdFor]
  · simp +decide [create_bol, createBolLoop, bagRecords, bagMembers, bagRest,
      inBag, fuzzSim, pyRound, lcsLen, thresholdFor]
  · intro lemmas
    simpa using createBolLoop_perm_false lemmas.length lemmas _ 0 [] le_rfl

/-- C2 is a code bug: the progress-reporting side effect does affect
control flow.  On the 2-element input `["ab", "zz"]`, `verbose=true`
aborts after the first bag (division by `step = 0`), while `verbose=false`
returns both bags, so the two runs return different records. -/
theorem create_bol_verbose_observable :
    create_bol ["ab", "zz"] true ≠ create_bol ["ab", "zz"] false := by
  simp +decide [create_bol, createBolLoop, bagRecords, bagMembers, bagRest,
    inBag, fuzzSim, pyRound, lcsLen, thresholdFor]

/-- C8: empty input gives empty output, for either value of `verbose`
(no iteration runs, and the zero `step` is never used). -/
theorem create_bol_empty_input : ∀ v : Bool, create_bol [] v = [] := by
  intro v
  rw [create_bol, createBolLoop_nil]

/-- C9: the representative's self-similarity is 100, which strictly
exceeds every threshold (all are ≤ 88), so the representative is always
selected and each iteration strictly shrinks the working set.  (In this
embedding that strict decrease is exactly the termination measure of
`createBolLoop`, so the loop terminates on every finite input.) -/
theorem create_bol_step_shrinks (current : String) (rest : List String) :
    fuzzSim current current = 100 ∧ thresholdFor current ≤ 88 ∧
    inBag current current = true ∧
    (bagRest (current :: rest)).length < (current :: rest).length :=
  ⟨fuzzSim_self current, thresholdFor_le current, inBag_self current,
    bagRest_length_lt current rest⟩

/-- Re-running `create_bol` on the member list of one bag reproduces that
single bag, whatever `verbose` is: the first iteration selects every
member (each already scored above the representative's threshold), the
working set becomes empty, and whether the run then stops normally or via
the caught `ZeroDivisionError` of the progress check, the same single
bag's rows have already been recorded. -/
theorem create_bol_on_bagMembers (cur : String) (rest : List String)
    (v : Bool) :
    create_bol (bagMembers (cur :: rest)) v =
      bagRecords (bagMembers (cur :: rest)) 1 := by
  have hall : ∀ b ∈ rest.filter (fun l => inBag cur l), inBag cur b = true :=
    fun b hb => List.of_mem_filter hb
  rw [bagMembers_cons, create_bol, createBolLoop_cons]
  have hrest : bagRest (cur :: rest.filter (fun l => inBag cur l)) = [] := by
    rw [bagRest_cons]
    refine List.filter_eq_nil_iff.mpr ?_
    intro b hb
    simp [hall b hb]
  by_cases hc : v = true ∧ (cur :: rest.filter (fun l => inBag cur l)).length / 20 = 0
  · rw [if_pos hc, List.nil_append]
  · rw [if_neg hc, hrest, createBolLoop_nil, List.nil_append]

/-- C6: re-clustering is idempotent on a single bag.  For any non-empty
working set, running `create_bol` on the lemma sequence of the bag formed
from it (in output order, which is `bagMembers`) yields a non-empty record
list that forms exactly one bag (`bow_id = 1` throughout) containing all
of those lemmas, in order. -/
theorem create_bol_recluster_idempotent (ws : List String) (v : Bool)
    (h : ws ≠ []) :
    (create_bol (bagMembers ws) v).map Record.lem = bagMembers ws ∧
    (∀ r ∈ create_bol (bagMembers ws) v, r.bow_id = 1) ∧
    create_bol (bagMembers ws) v ≠ [] := by
  obtain ⟨cur, rest, rfl⟩ := List.exists_cons_of_ne_nil h
  have hmem : ∀ b ∈ bagMembers (cur :: rest), inBag cur b = true := by
    intro b hb
    rw [bagMembers_cons] at hb
    rcases List.mem_cons.mp hb with h1 | h2
    · rw [h1]; exact inBag_self cur
    · exact List.of_mem_filter h2
  have hself : bagMembers (bagMembers (cur :: rest)) = bagMembers (cur :: rest) := by
    rw [bagMembers_cons, bagMembers_cons]
    refine congrArg (cur :: ·) (List.filter_eq_self.mpr ?_)
    intro b hb
    exact List.of_mem_filter hb
  rw [create_bol_on_bagMembers cur rest v]
  refine ⟨?_, ?_, ?_⟩
  · rw [bagRecords_map_lem, hself]
  · intro r hr
    rw [bagMembers_cons] at hr
    exact (bagRecords_mem cur _ 1 r hr).1
  · rw [bagMembers_cons]
    intro hnil
    have := bag_self_mem cur (rest.filter (fun l => inBag cur l)) 1
    rw [hnil] at this
    exact (List.not_mem_nil _ this)

theorem create_bol_recluster_idempotent_witness :
    ((create_bol (bagMembers ["ab", "ac", "zz"]) true).map Record.lem =
      bagMembers ["ab", "ac", "zz"]) ∧
    (∀ r ∈ create_bol (bagMembers ["ab", "ac", "zz"]) true, r.bow_id = 1) ∧
    create_bol (bagMembers ["ab", "ac", "zz"]) true ≠ [] :=
  create_bol_recluster_idempotent ["ab", "ac", "zz"] true (by simp)
theorem itemSim_other_left (b : Item) :
    itemSim Item.other b = Except.error ("TypeError") := by
  cases b <;> rfl

/-- The similarity comprehension fails as soon as the working set holds a
non-string element, whoever the representative is. -/
theorem mapM_itemSim_error (cur : Item) :
    ∀ l : List Item, Item.other ∈ l →
      l.mapM (itemSim cur) = Except.error ("TypeError") := by
  intro l
  induction l with
  | nil => intro h; cases h
  | cons a t ih =>
    intro h
    cases cur with
    | other =>
      rw [List.mapM_cons, itemSim_other_left]
      rfl
    | str c =>
      cases a with
      | other =>
        rw [List.mapM_cons, show itemSim (Item.str c) Item.other =
          Except.error ("TypeError") from rfl]
        rfl
      | str s =>
        have ht : Item.other ∈ t := by
          rcases List.mem_cons.mp h with h1 | h2
          · cases h1
          · exact h2
        rw [List.mapM_cons, show itemSim (Item.str c) (Item.str s) =
          Except.ok (fuzzSim c s) from rfl, ih ht]
        rfl

theorem mapM_itemSim_str (c : String) :
    ∀ l : List String, (l.map Item.str).mapM (itemSim (Item.str c)) =
      Except.ok (l.map (fuzzSim c)) := by
  intro l
  induction l with
  | nil => rfl
  | cons a t ih =>
    rw [List.map_cons, List.mapM_cons, show itemSim (Item.str c) (Item.str a) =
      Except.ok (fuzzSim c a) from rfl, ih]
    rfl

theorem itemStr_map_str (l : List String) : (l.map Item.str).map itemStr = l := by
  induction l with
  | nil => rfl
  | cons a t ih => simp only [List.map_cons, itemStr, ih]

/-- On all-string inputs the raw-array loop is the string loop. -/
theorem createBolLoopI_str :
    ∀ (n : Nat) (ws : List String) (v : Bool) (step iter : Nat)
      (acc : List Record), ws.length ≤ n →
      createBolLoopI (ws.map Item.str) v step iter acc =
        createBolLoop ws v step iter acc := by
  intro n
  induction n with
  | zero =>
    intro ws v step iter acc hlen
    have hws : ws = [] := List.eq_nil_of_length_eq_zero (Nat.le_zero.mp hlen)
    subst hws
    rw [List.map_nil, createBolLoopI, createBolLoop_nil]
  | succ n ih =>
    intro ws v step iter acc hlen
    cases ws with
    | nil => rw [List.map_nil, createBolLoopI, createBolLoop_nil]
    | cons cur rest =>
      rw [List.map_cons, createBolLoopI]
      rw [show Item.str cur :: rest.map Item.str = (cur :: rest).map Item.str
        from rfl, mapM_itemSim_str cur (cur :: rest)]
      simp only [itemStr_map_str]
      rw [createBolLoop_cons]
      have hlt : (bagRest (cur :: rest)).length ≤ n := by
        have := bagRest_length_lt cur rest
        simp only [List.length_cons] at this hlen
        omega
      by_cases hc : v = true ∧ step = 0
      · rw [if_pos hc, if_pos hc]
      · rw [if_neg hc, if_neg hc]
        exact ih _ v step (iter + 1) _ hlt

/-- C7: an unexpected error inside an iteration (here: a non-string
element, which makes the similarity comprehension raise `TypeError`) never
propagates to the caller: `createBolItems` still returns a record list,
namely the records of the iterations completed before the failure.  The
similarity pass scans the entire current working set, so a non-string
element makes the very first iteration fail and that record list is empty.
On inputs where no error occurs the run coincides with the normal loop. -/
theorem create_bol_error_partial :
    (∀ (items : List Item) (v : Bool), Item.other ∈ items →
      createBolItems items v = []) ∧
    (∀ (lemmas : List String) (v : Bool),
      createBolItems (lemmas.map Item.str) v = create_bol lemmas v) := by
  constructor
  · intro items v h
    cases items with
    | nil => cases h
    | cons a t =>
      rw [createBolItems, createBolLoopI, mapM_itemSim_error a _ h]
  · intro lemmas v
    rw [createBolItems, create_bol]
    have := createBolLoopI_str lemmas.length lemmas v
      ((lemmas.map Item.str).length / 20) 0 [] le_rfl
    simpa [List.length_map] using this

theorem create_bol_error_partial_witness :
    (Item.other ∈ [Item.str ("ab"), Item.other] ∧
      createBolItems [Item.str ("ab"), Item.other] true = []) ∧
    createBolItems ([("ab"), ("zz")].map Item.str) false =
      create_bol [("ab"), ("zz")] false :=
  ⟨⟨by simp, create_bol_error_partial.1 _ true (by simp)⟩,
    create_bol_error_partial.2 [("ab"), ("zz")] false⟩

/-- C10 is a code bug: the second substitution's character class is built
by re-escaping the already-joined alternation, so with two or more
exception characters the literal `|` is excluded from collapsing: a run of
pipes survives untouched, where the claim (and the function's own
docstring) collapse it to one.  Runs of letters behave as claimed: the
spec-side collapse and the code agree on `"coooroosooo"` but not on
`"a|||b"`. -/
theorem remove_repetitions_pipe_bug :
    remove_repetitions ("a|||b") defaultExceptions = "a|||b" ∧
    String.mk (specCollapse defaultExceptions ("a|||b").toList) = "a|b" ∧
    remove_repetitions ("coooroosooo") defaultExceptions = "cooroosoo" ∧
    String.mk (specCollapse defaultExceptions ("coooroosooo").toList) =
      "cooroosoo" ∧
    remove_repetitions ("a|||b") defaultExceptions ≠
      String.mk (specCollapse defaultExceptions ("a|||b").toList) := by
  refine ⟨?_, ?_, ?_, ?_, ?_⟩ <;>
    simp +decide [remove_repetitions, sub1, sub2, reClass2, defaultExceptions,
      specCollapse]
